import Mathlib

/-!
Verification of the recursive parallel stable sort of
src/parallelstablesort.cpp.

The program benchmarks four variants of the same divide-and-conquer stable
sort over vectors of std::pair<int32_t, int32_t> records:
stable_sort_thread (lines 278-325), stable_sort_openmp (lines 161-213),
stable_sort_tbb (lines 224-268) and stable_sort_cilk (lines 103-149).
The four recursive bodies are identical apart from the concurrency
primitive used to run the two recursive calls: each splits the range at
the arithmetic midpoint, sorts the two disjoint halves (in parallel while
the incremented recursion depth is at most THRESHOLD, line 72, otherwise
by a single call of std::stable_sort), joins both halves, and merges them
with std::inplace_merge.  Because the two sub-ranges are disjoint and both
sub-sorts complete before the merge starts, the value computed by every
variant is the one computed by the sequential denotation of this recursion,
which is what this file embeds.
-/

/-- Record type of the program, line 37: a std::pair of a key and the
original index, both std::int32_t.  The program only copies and compares
records, never doing arithmetic on the components, so the int32 values
embed as mathematical integers. -/
abbrev mypair : Type := Int × Int

/-- Strict order used by every sort and merge call of the program: the
default operator< of std::pair, i.e. the lexicographic order comparing
the key first and the original index second. -/
def mypair_lt (a b : mypair) : Prop :=
  a.1 < b.1 ∨ (a.1 = b.1 ∧ a.2 < b.2)

instance mypair_lt_decidable (a b : mypair) : Decidable (mypair_lt a b) :=
  inferInstanceAs (Decidable (a.1 < b.1 ∨ (a.1 = b.1 ∧ a.2 < b.2)))

/-- Reflexive companion of mypair_lt: mypair_le a b holds exactly when
mypair_lt b a fails (the order is total). -/
def mypair_le (a b : mypair) : Prop :=
  a.1 < b.1 ∨ (a.1 = b.1 ∧ a.2 ≤ b.2)

instance mypair_le_decidable (a b : mypair) : Decidable (mypair_le a b) :=
  inferInstanceAs (Decidable (a.1 < b.1 ∨ (a.1 = b.1 ∧ a.2 ≤ b.2)))

/-- Boolean form of mypair_le, the comparator shape List.mergeSort uses. -/
def mypair_leb (a b : mypair) : Bool :=
  decide (mypair_le a b)

theorem mypair_le_refl (a : mypair) : mypair_le a a :=
  Or.inr ⟨rfl, le_refl _⟩

theorem mypair_le_total (a b : mypair) : mypair_le a b ∨ mypair_le b a := by
  simp only [mypair_le]
  omega

theorem mypair_le_trans {a b c : mypair} (h1 : mypair_le a b) (h2 : mypair_le b c) :
    mypair_le a c := by
  simp only [mypair_le] at h1 h2 ⊢
  omega

theorem mypair_le_antisymm {a b : mypair} (h1 : mypair_le a b) (h2 : mypair_le b a) :
    a = b := by
  obtain ⟨a1, a2⟩ := a
  obtain ⟨b1, b2⟩ := b
  simp only [mypair_le, Prod.mk.injEq] at h1 h2 ⊢
  omega

theorem mypair_le_of_lt {a b : mypair} (h : mypair_lt a b) : mypair_le a b := by
  simp only [mypair_lt, mypair_le] at h ⊢
  omega

theorem mypair_not_lt {a b : mypair} : ¬ mypair_lt a b ↔ mypair_le b a := by
  simp only [mypair_lt, mypair_le]
  omega

instance : IsAntisymm mypair mypair_le :=
  ⟨fun _ _ => mypair_le_antisymm⟩

theorem mypair_leb_trans (a b c : mypair) (h1 : mypair_leb a b) (h2 : mypair_leb b c) :
    mypair_leb a c := by
  simp only [mypair_leb, decide_eq_true_eq] at h1 h2 ⊢
  exact mypair_le_trans h1 h2

theorem mypair_leb_total (a b : mypair) : mypair_leb a b || mypair_leb b a := by
  simp only [mypair_leb, Bool.or_eq_true, decide_eq_true_eq]
  exact mypair_le_total a b

/-- Model of std::stable_sort(first, last) with the default comparator, the
sequential leaf sort and oracle of the program (called at lines 134, 196,
253, 310, 380, 429, 437, 462): the sorted stable permutation of the range.
It is realised by List.mergeSort with the reflexive lexicographic
comparator; since that comparator is total, transitive and antisymmetric on
record values, the sorted permutation of a range is unique, so this is the
value any conforming std::stable_sort implementation produces. -/
def std_stable_sort (l : List mypair) : List mypair :=
  l.mergeSort mypair_leb

theorem std_stable_sort_perm (l : List mypair) : (std_stable_sort l).Perm l :=
  List.mergeSort_perm l mypair_leb

theorem std_stable_sort_sorted (l : List mypair) :
    (std_stable_sort l).Pairwise mypair_le := by
  have h := List.sorted_mergeSort mypair_leb_trans mypair_leb_total l
  exact h.imp (fun hab => by simpa [mypair_leb] using hab)

theorem std_stable_sort_of_sorted {l : List mypair} (h : l.Pairwise mypair_le) :
    std_stable_sort l = l := by
  refine List.mergeSort_of_sorted (h.imp ?_)
  intro a b hab
  simpa [mypair_leb] using hab

/-- Model of std::inplace_merge(first, middle, last) with the default
comparator (called at lines 130, 192, 249, 306): merges the two adjacent
sorted sub-ranges [first, middle) and [middle, last) into one sorted range.
An element is taken from the right sub-range exactly when it is strictly
less than the next element of the left sub-range, so on elements that
compare equivalent the left sub-range is drained first, which is the
stability guarantee of std::inplace_merge. -/
def inplace_merge : List mypair → List mypair → List mypair
  | [], ys => ys
  | x :: xs, [] => x :: xs
  | x :: xs, y :: ys =>
    if mypair_lt y x then y :: inplace_merge (x :: xs) ys
    else x :: inplace_merge xs (y :: ys)
termination_by xs ys => xs.length + ys.length

theorem inplace_merge_perm : ∀ (A B : List mypair), (inplace_merge A B).Perm (A ++ B)
  | [], ys => by simp [inplace_merge]
  | x :: xs, [] => by simp [inplace_merge]
  | x :: xs, y :: ys => by
    rw [inplace_merge]
    split
    · exact ((inplace_merge_perm (x :: xs) ys).cons y).trans List.perm_middle.symm
    · exact (inplace_merge_perm xs (y :: ys)).cons x
termination_by A B => A.length + B.length

theorem inplace_merge_sorted : ∀ (A B : List mypair),
    A.Pairwise mypair_le → B.Pairwise mypair_le →
    (inplace_merge A B).Pairwise mypair_le
  | [], ys, _, hB => by simpa [inplace_merge] using hB
  | x :: xs, [], hA, _ => by simpa [inplace_merge] using hA
  | x :: xs, y :: ys, hA, hB => by
    rw [inplace_merge]
    obtain ⟨hx, hxs⟩ := List.pairwise_cons.mp hA
    obtain ⟨hy, hys⟩ := List.pairwise_cons.mp hB
    split
    next hlt =>
      refine List.pairwise_cons.mpr ⟨?_, inplace_merge_sorted (x :: xs) ys hA hys⟩
      intro z hz
      rcases List.mem_append.mp ((inplace_merge_perm (x :: xs) ys).mem_iff.mp hz)
        with hz' | hz'
      · rcases List.mem_cons.mp hz' with hz'' | hz''
        · exact hz'' ▸ mypair_le_of_lt hlt
        · exact mypair_le_trans (mypair_le_of_lt hlt) (hx z hz'')
      · exact hy z hz'
    next hnlt =>
      have hxy : mypair_le x y := mypair_not_lt.mp hnlt
      refine List.pairwise_cons.mpr ⟨?_, inplace_merge_sorted xs (y :: ys) hxs hB⟩
      intro z hz
      rcases List.mem_append.mp ((inplace_merge_perm xs (y :: ys)).mem_iff.mp hz)
        with hz' | hz'
      · exact hx z hz'
      · rcases List.mem_cons.mp hz' with hz'' | hz''
        · exact hz'' ▸ hxy
        · exact mypair_le_trans hxy (hy z hz'')
termination_by A B => A.length + B.length

/-- Merging the sequential sorts of two adjacent sub-ranges gives the
sequential sort of the whole range: both sides are sorted permutations of
the same list and the lexicographic order is antisymmetric, so the sorted
permutation is unique. -/
theorem inplace_merge_std_stable_sort (A B : List mypair) :
    inplace_merge (std_stable_sort A) (std_stable_sort B) = std_stable_sort (A ++ B) := by
  have hp : (inplace_merge (std_stable_sort A) (std_stable_sort B)).Perm
      (std_stable_sort (A ++ B)) :=
    (inplace_merge_perm _ _).trans
      (((std_stable_sort_perm A).append (std_stable_sort_perm B)).trans
        (std_stable_sort_perm (A ++ B)).symm)
  have h1 : List.Sorted mypair_le (inplace_merge (std_stable_sort A) (std_stable_sort B)) :=
    inplace_merge_sorted _ _ (std_stable_sort_sorted A) (std_stable_sort_sorted B)
  have h2 : List.Sorted mypair_le (std_stable_sort (A ++ B)) :=
    std_stable_sort_sorted (A ++ B)
  exact List.eq_of_perm_of_sorted hp h1 h2

/-- Recursion threshold of the program, line 72: a call parallelises only
while the incremented recursion depth is at most this constant. -/
def THRESHOLD : Int := 3

/-- Depth gate of every variant, the condition of the branch at lines 117,
175, 238 and 292: after the depth counter reci has been incremented, the
parallel split is taken exactly when reci is at most THRESHOLD. -/
def depth_gate (reci : Int) : Bool :=
  decide (reci ≤ THRESHOLD)

/-- Sequential denotation of the shared recursive body of stable_sort_thread
(lines 278-312), stable_sort_openmp (lines 161-198), stable_sort_tbb (lines
224-255) and stable_sort_cilk (lines 103-136); the four C++ bodies differ
only in the primitive (std::thread + join, omp task + taskwait,
tbb::parallel_invoke, cilk_spawn + cilk_sync) that runs the two recursive
calls on the disjoint halves, all of which complete before the merge, so
every variant computes this function.  A range of length at most 1 is
returned unchanged; while the incremented depth reci + 1 is at most the
threshold the range is split at the arithmetic midpoint first + len / 2,
both halves are sorted recursively and merged; past the threshold the whole
range goes to std::stable_sort.  The global constant THRESHOLD is passed
here as an explicit parameter. -/
def stable_sort_impl (threshold : Int) (l : List mypair) (reci : Int) : List mypair :=
  if l.length ≤ 1 then l
  else if reci + 1 ≤ threshold then
    inplace_merge
      (stable_sort_impl threshold (l.take (l.length / 2)) (reci + 1))
      (stable_sort_impl threshold (l.drop (l.length / 2)) (reci + 1))
  else
    std_stable_sort l
termination_by l.length
decreasing_by
  · simp only [List.length_take]
    omega
  · simp only [List.length_drop]
    omega

/-- Entry point stable_sort_thread(first, last), lines 321-325: runs the
recursion with depth 0 and the global THRESHOLD, two std::thread objects
per parallel split, joined before the merge. -/
def stable_sort_thread (l : List mypair) : List mypair :=
  stable_sort_impl THRESHOLD l 0

/-- Entry point stable_sort_openmp(first, last), lines 207-213: runs the
recursion with depth 0 and the global THRESHOLD, one OpenMP task per
recursive call, awaited by taskwait before the merge. -/
def stable_sort_openmp (l : List mypair) : List mypair :=
  stable_sort_impl THRESHOLD l 0

/-- Entry point stable_sort_tbb(first, last), lines 264-268: runs the
recursion with depth 0 and the global THRESHOLD, the two recursive calls
executed by tbb::parallel_invoke, which returns only when both finish. -/
def stable_sort_tbb (l : List mypair) : List mypair :=
  stable_sort_impl THRESHOLD l 0

/-- Entry point stable_sort_cilk(first, last), lines 145-149: runs the
recursion with depth 0 and the global THRESHOLD, the two recursive calls
spawned with cilk_spawn and awaited by cilk_sync before the merge. -/
def stable_sort_cilk (l : List mypair) : List mypair :=
  stable_sort_impl THRESHOLD l 0

/-- Leaf decomposition of one call tree of the shared recursion: the list of
sub-ranges on which the recursion bottoms out, in left-to-right order.  The
guards mirror stable_sort_impl exactly: a range of length at most 1 is a
leaf, a call past the depth gate hands its whole range to std::stable_sort
and is a leaf, and a gated call contributes the leaves of its two halves. -/
def leaf_segments (threshold : Int) (l : List mypair) (reci : Int) : List (List mypair) :=
  if l.length ≤ 1 then [l]
  else if reci + 1 ≤ threshold then
    leaf_segments threshold (l.take (l.length / 2)) (reci + 1) ++
      leaf_segments threshold (l.drop (l.length / 2)) (reci + 1)
  else [l]
termination_by l.length
decreasing_by
  · simp only [List.length_take]
    omega
  · simp only [List.length_drop]
    omega

/-- Model of vec_check (lines 472-486): the two vectors are asserted to have
equal sizes and are then compared element by element, returning false at the
first difference. -/
def vec_check (v1 v2 : List mypair) : Bool :=
  v1.length == v2.length && (List.zip v1 v2).all fun p => decide (p.1 = p.2)

/-- Main theorem about the recursion: for every threshold and every starting
depth, the shared recursive sort computes exactly the value of the
sequential std::stable_sort of the whole range.  Both the parallel split
branch (by induction and uniqueness of the sorted permutation) and the
sequential branch produce the sorted permutation of the range. -/
theorem stable_sort_impl_eq_std (t : Int) (l : List mypair) (reci : Int) :
    stable_sort_impl t l reci = std_stable_sort l := by
  rw [stable_sort_impl.eq_def]
  split
  next hlen =>
    rcases l with _ | ⟨a, _ | ⟨b, l⟩⟩
    · simp [std_stable_sort]
    · simp [std_stable_sort]
    · simp only [List.length_cons] at hlen
      omega
  next hlen =>
    split
    next hr =>
      rw [stable_sort_impl_eq_std t (l.take (l.length / 2)) (reci + 1),
        stable_sort_impl_eq_std t (l.drop (l.length / 2)) (reci + 1),
        inplace_merge_std_stable_sort, List.take_append_drop]
    next => rfl
termination_by l.length
decreasing_by
  · simp only [List.length_take]
    omega
  · simp only [List.length_drop]
    omega

theorem mypair_lt_of_lt_of_le {a b c : mypair} (h1 : mypair_lt a b) (h2 : mypair_le b c) :
    mypair_lt a c := by
  simp only [mypair_lt, mypair_le] at h1 h2 ⊢
  omega

theorem mypair_lt_ne {a b : mypair} (h : mypair_lt a b) : a ≠ b := by
  intro heq
  subst heq
  simp only [mypair_lt] at h
  omega

/-- Copy of inplace_merge in which every record carries an origin tag,
false for the left sub-range and true for the right one; the comparisons
read only the record component, so erasing the tags recovers inplace_merge.
This instrumentation makes the origin of every output position of the merge
expressible. -/
def inplace_merge_tagged : List (mypair × Bool) → List (mypair × Bool) → List (mypair × Bool)
  | [], ys => ys
  | x :: xs, [] => x :: xs
  | x :: xs, y :: ys =>
    if mypair_lt y.1 x.1 then y :: inplace_merge_tagged (x :: xs) ys
    else x :: inplace_merge_tagged xs (y :: ys)
termination_by xs ys => xs.length + ys.length

theorem inplace_merge_tagged_perm : ∀ (X Y : List (mypair × Bool)),
    (inplace_merge_tagged X Y).Perm (X ++ Y)
  | [], ys => by simp [inplace_merge_tagged]
  | x :: xs, [] => by simp [inplace_merge_tagged]
  | x :: xs, y :: ys => by
    rw [inplace_merge_tagged]
    split
    · exact ((inplace_merge_tagged_perm (x :: xs) ys).cons y).trans List.perm_middle.symm
    · exact (inplace_merge_tagged_perm xs (y :: ys)).cons x
termination_by X Y => X.length + Y.length

theorem inplace_merge_tagged_map_fst : ∀ (X Y : List (mypair × Bool)),
    (inplace_merge_tagged X Y).map Prod.fst
      = inplace_merge (X.map Prod.fst) (Y.map Prod.fst)
  | [], ys => by simp [inplace_merge_tagged, inplace_merge]
  | x :: xs, [] => by simp [inplace_merge_tagged, inplace_merge]
  | x :: xs, y :: ys => by
    by_cases h : mypair_lt y.1 x.1
    · rw [inplace_merge_tagged, if_pos h]
      simp only [List.map_cons]
      rw [inplace_merge, if_pos h, ← List.map_cons Prod.fst x xs,
        inplace_merge_tagged_map_fst (x :: xs) ys, List.map_cons]
    · rw [inplace_merge_tagged, if_neg h]
      simp only [List.map_cons]
      rw [inplace_merge, if_neg h, ← List.map_cons Prod.fst y ys,
        inplace_merge_tagged_map_fst xs (y :: ys), List.map_cons]
termination_by X Y => X.length + Y.length

/-- Record-level stability of the instrumented merge: when the left run is
sorted, no right-tagged element of the output strictly precedes a
left-tagged element carrying an equal record value. -/
theorem inplace_merge_tagged_stable : ∀ (X Y : List (mypair × Bool)),
    (X.map Prod.fst).Pairwise mypair_le →
    (∀ p ∈ X, p.2 = false) → (∀ q ∈ Y, q.2 = true) →
    (inplace_merge_tagged X Y).Pairwise
      (fun p q => ¬(p.1 = q.1 ∧ p.2 = true ∧ q.2 = false))
  | [], ys, _, _, hY => by
    rw [inplace_merge_tagged]
    refine List.pairwise_of_forall_mem_list ?_
    rintro p _ q hq ⟨_, _, hqf⟩
    rw [hY q hq] at hqf
    exact absurd hqf (by decide)
  | x :: xs, [], hX, hXf, _ => by
    rw [inplace_merge_tagged]
    refine List.pairwise_of_forall_mem_list ?_
    rintro p hp q _ ⟨_, hpt, _⟩
    rw [hXf p hp] at hpt
    exact Bool.false_ne_true hpt
  | x :: xs, y :: ys, hX, hXf, hY => by
    rw [inplace_merge_tagged]
    split
    next hlt =>
      refine List.pairwise_cons.mpr ⟨?_, ?_⟩
      · rintro z hz ⟨hzeq, _, hzf⟩
        rcases List.mem_append.mp
            ((inplace_merge_tagged_perm (x :: xs) ys).mem_iff.mp hz) with hz' | hz'
        · have hle : mypair_le x.1 z.1 := by
            rcases List.mem_cons.mp hz' with hz'' | hz''
            · exact hz'' ▸ mypair_le_refl x.1
            · exact (List.pairwise_cons.mp hX).1 z.1 (List.mem_map_of_mem Prod.fst hz'')
          exact mypair_lt_ne (mypair_lt_of_lt_of_le hlt hle) hzeq
        · rw [hY z (List.mem_cons_of_mem y hz')] at hzf
          exact absurd hzf (by decide)
      · exact inplace_merge_tagged_stable (x :: xs) ys hX hXf
          (fun q hq => hY q (List.mem_cons_of_mem y hq))
    next =>
      refine List.pairwise_cons.mpr ⟨?_, ?_⟩
      · rintro z _ ⟨_, hpt, _⟩
        rw [hXf x (List.mem_cons_self x xs)] at hpt
        exact Bool.false_ne_true hpt
      · exact inplace_merge_tagged_stable xs (y :: ys)
          (by simpa using (List.pairwise_cons.mp (by simpa using hX)).2)
          (fun p hp => hXf p (List.mem_cons_of_mem x hp)) hY
termination_by X Y => X.length + Y.length

/-- One call tree of the recursion produces at most 2 raised to the
remaining depth budget many leaf segments. -/
theorem leaf_segments_count (t : Int) (l : List mypair) (reci : Int) :
    (leaf_segments t l reci).length ≤ 2 ^ (t - reci).toNat := by
  rw [leaf_segments.eq_def]
  split
  next => simpa using Nat.one_le_two_pow
  next hlen =>
    split
    next hr =>
      rw [List.length_append]
      have h1 := leaf_segments_count t (l.take (l.length / 2)) (reci + 1)
      have h2 := leaf_segments_count t (l.drop (l.length / 2)) (reci + 1)
      have hpow : (t - reci).toNat = (t - (reci + 1)).toNat + 1 := by omega
      rw [hpow, pow_succ]
      omega
    next => simpa using Nat.one_le_two_pow
termination_by l.length
decreasing_by
  · simp only [List.length_take]
    omega
  · simp only [List.length_drop]
    omega

/-- The leaf segments of one call tree concatenate back to the range the
call was given: the recursion only ever splits a range into its two halves. -/
theorem leaf_segments_flatten (t : Int) (l : List mypair) (reci : Int) :
    (leaf_segments t l reci).flatten = l := by
  rw [leaf_segments.eq_def]
  split
  next => simp
  next hlen =>
    split
    next hr =>
      rw [List.flatten_append, leaf_segments_flatten t (l.take (l.length / 2)) (reci + 1),
        leaf_segments_flatten t (l.drop (l.length / 2)) (reci + 1), List.take_append_drop]
    next => simp
termination_by l.length
decreasing_by
  · simp only [List.length_take]
    omega
  · simp only [List.length_drop]
    omega

/-- A call at a depth past the threshold is one single leaf: it never
splits, and neither does any descendant, because there are none. -/
theorem leaf_segments_past_gate (t : Int) (l : List mypair) (reci : Int) (h : t ≤ reci) :
    leaf_segments t l reci = [l] := by
  rw [leaf_segments.eq_def]
  split
  next => rfl
  next =>
    split
    next hr => omega
    next => rfl

theorem zip_self_eq (v : List mypair) : ∀ p ∈ List.zip v v, p.1 = p.2 := by
  induction v with
  | nil =>
    intro p hp
    simp at hp
  | cons a v ih =>
    intro p hp
    rcases List.mem_cons.mp (by simpa [List.zip_cons_cons] using hp) with h | h
    · subst h
      rfl
    · exact ih p h

theorem vec_check_self (v : List mypair) : vec_check v v = true := by
  simp only [vec_check, beq_self_eq_true, Bool.true_and, List.all_eq_true,
    decide_eq_true_eq]
  exact zip_self_eq v

/-- C1: for every finite sequence of (key, original-index) records and each
recursive sort variant (stable_sort_thread, stable_sort_openmp,
stable_sort_tbb, stable_sort_cilk), the returned sequence is sorted by key
ascending, and of any two records with equal keys the one with the smaller
original index precedes the other. -/
theorem C1_every_variant_sorted_and_stable (l : List mypair) :
    ∀ out ∈ [stable_sort_thread l, stable_sort_openmp l, stable_sort_tbb l,
      stable_sort_cilk l],
      out.Pairwise (fun a b : mypair => a.1 ≤ b.1 ∧ (a.1 = b.1 → a.2 ≤ b.2)) := by
  have hs : (std_stable_sort l).Pairwise
      (fun a b : mypair => a.1 ≤ b.1 ∧ (a.1 = b.1 → a.2 ≤ b.2)) := by
    refine (std_stable_sort_sorted l).imp ?_
    intro a b hab
    simp only [mypair_le] at hab
    exact ⟨by omega, fun h => by omega⟩
  intro out hout
  simp only [stable_sort_thread, stable_sort_openmp, stable_sort_tbb, stable_sort_cilk,
    stable_sort_impl_eq_std, List.mem_cons, List.not_mem_nil, or_false, or_self] at hout
  exact hout ▸ hs

/-- Witness for C1 at the Scenario A input of the specification. -/
theorem C1_witness :
    (stable_sort_thread [((5 : Int), (0 : Int)), (3, 1), (5, 2), (1, 3)]).Pairwise
      (fun a b : mypair => a.1 ≤ b.1 ∧ (a.1 = b.1 → a.2 ≤ b.2)) :=
  C1_every_variant_sorted_and_stable [((5 : Int), (0 : Int)), (3, 1), (5, 2), (1, 3)]
    (stable_sort_thread [((5 : Int), (0 : Int)), (3, 1), (5, 2), (1, 3)]) (by simp)

/-- C2: every backend variant returns exactly the sequence the sequential
std::stable_sort computes on an independent copy of the input, which is the
comparison the debug oracle vec_check performs element for element. -/
theorem C2_variants_equal_sequential_oracle (l : List mypair) :
    stable_sort_thread l = std_stable_sort l ∧
    stable_sort_openmp l = std_stable_sort l ∧
    stable_sort_tbb l = std_stable_sort l ∧
    stable_sort_cilk l = std_stable_sort l ∧
    vec_check (stable_sort_thread l) (std_stable_sort l) = true := by
  have h : stable_sort_thread l = std_stable_sort l :=
    stable_sort_impl_eq_std THRESHOLD l 0
  refine ⟨h, h, h, h, ?_⟩
  rw [h]
  exact vec_check_self _

theorem map_tag_fst (b : Bool) (A : List mypair) :
    (A.map fun a => (a, b)).map Prod.fst = A := by
  induction A with
  | nil => rfl
  | cons a A ih => simp [ih]

/-- Key-level origin contract the specification claims for the merge step:
in the origin-instrumented merge of left sub-range A and right sub-range B,
no right-originating record precedes a left-originating record of equal
key. -/
def merge_left_first_on_equal_keys (A B : List mypair) : Prop :=
  (inplace_merge_tagged (A.map fun a => (a, false)) (B.map fun b => (b, true))).Pairwise
    (fun p q => ¬(p.1.1 = q.1.1 ∧ p.2 = true ∧ q.2 = false))

/-- Counterexample to C3 as stated: the sub-ranges [(5, 7)] and [(5, 2)]
are each sorted, but the merge (which compares whole records, breaking the
key tie by the original index) places the right-originating record (5, 2)
before the left-originating equal-key record (5, 7). -/
theorem C3_counterexample :
    List.Pairwise mypair_le [(((5 : Int), (7 : Int)) : mypair)] ∧
    List.Pairwise mypair_le [(((5 : Int), (2 : Int)) : mypair)] ∧
    inplace_merge [(((5 : Int), (7 : Int)) : mypair)] [((5 : Int), (2 : Int))]
      = [((5 : Int), (2 : Int)), ((5 : Int), (7 : Int))] ∧
    ¬ merge_left_first_on_equal_keys [((5 : Int), (7 : Int))] [((5 : Int), (2 : Int))] := by
  refine ⟨by simp, by simp, ?_, ?_⟩
  · rw [inplace_merge, if_pos (by decide), inplace_merge]
  · intro h
    unfold merge_left_first_on_equal_keys at h
    simp only [List.map_cons, List.map_nil] at h
    rw [inplace_merge_tagged, if_pos (by decide), inplace_merge_tagged] at h
    exact (List.pairwise_cons.mp h).1 (((5 : Int), (7 : Int)), false) (by simp)
      ⟨rfl, rfl, rfl⟩

/-- C3 amended: invoked on adjacent individually sorted sub-ranges, the
merge step rearranges them into a single sorted range (sorted under the
whole-record comparator, so among equal keys the smaller original index
precedes, whichever side it came from); records that compare equal under
the comparator — equal key and equal original index — keep every
left-originating copy before every right-originating one; and erasing the
origin tags of the instrumented merge recovers the merge itself. -/
theorem C3_merge_sorted_and_record_stable (A B : List mypair)
    (hA : A.Pairwise mypair_le) (hB : B.Pairwise mypair_le) :
    (inplace_merge A B).Pairwise mypair_le ∧
    (inplace_merge_tagged (A.map fun a => (a, false)) (B.map fun b => (b, true))).Pairwise
      (fun p q => ¬(p.1 = q.1 ∧ p.2 = true ∧ q.2 = false)) ∧
    (inplace_merge_tagged (A.map fun a => (a, false)) (B.map fun b => (b, true))).map
      Prod.fst = inplace_merge A B := by
  refine ⟨inplace_merge_sorted A B hA hB, ?_, ?_⟩
  · refine inplace_merge_tagged_stable _ _ ?_ ?_ ?_
    · rw [map_tag_fst]
      exact hA
    · intro p hp
      rcases List.mem_map.mp hp with ⟨a, _, rfl⟩
      rfl
    · intro q hq
      rcases List.mem_map.mp hq with ⟨b, _, rfl⟩
      rfl
  · rw [inplace_merge_tagged_map_fst, map_tag_fst, map_tag_fst]

/-- Witness for C3 amended on the sorted sub-ranges [(5, 0)] and [(5, 2)]. -/
theorem C3_witness :
    List.Pairwise mypair_le [(((5 : Int), (0 : Int)) : mypair)] ∧
    List.Pairwise mypair_le [(((5 : Int), (2 : Int)) : mypair)] ∧
    ((inplace_merge [(((5 : Int), (0 : Int)) : mypair)] [((5 : Int), (2 : Int))]).Pairwise
        mypair_le ∧
      (inplace_merge_tagged ([(((5 : Int), (0 : Int)) : mypair)].map fun a => (a, false))
        ([(((5 : Int), (2 : Int)) : mypair)].map fun b => (b, true))).Pairwise
        (fun p q => ¬(p.1 = q.1 ∧ p.2 = true ∧ q.2 = false)) ∧
      (inplace_merge_tagged ([(((5 : Int), (0 : Int)) : mypair)].map fun a => (a, false))
        ([(((5 : Int), (2 : Int)) : mypair)].map fun b => (b, true))).map Prod.fst
        = inplace_merge [(((5 : Int), (0 : Int)) : mypair)] [((5 : Int), (2 : Int))]) :=
  ⟨by simp, by simp,
    C3_merge_sorted_and_record_stable [((5 : Int), (0 : Int))] [((5 : Int), (2 : Int))]
      (by simp) (by simp)⟩

/-- C4: with THRESHOLD = 3, every recursive call splits in parallel exactly
when the incremented depth passes the gate reci + 1 ≤ THRESHOLD; a call
whose incremented depth exceeds the threshold hands its whole range to the
sequential sort and spawns no descendants, so it is a single leaf; and one
top-level call produces at most 2 ^ 3 = 8 sequentially sorted leaf
segments, which concatenate back to the input range. -/
theorem C4_depth_gate_bounds_fanout :
    THRESHOLD = 3 ∧
    (∀ reci : Int, depth_gate reci = true ↔ reci ≤ THRESHOLD) ∧
    (∀ (l : List mypair) (reci : Int), 1 < l.length → reci + 1 ≤ THRESHOLD →
      stable_sort_impl THRESHOLD l reci =
        inplace_merge (stable_sort_impl THRESHOLD (l.take (l.length / 2)) (reci + 1))
          (stable_sort_impl THRESHOLD (l.drop (l.length / 2)) (reci + 1))) ∧
    (∀ (l : List mypair) (reci : Int), 1 < l.length → THRESHOLD < reci + 1 →
      stable_sort_impl THRESHOLD l reci = std_stable_sort l) ∧
    (∀ (l : List mypair) (reci : Int), THRESHOLD ≤ reci →
      leaf_segments THRESHOLD l reci = [l]) ∧
    (∀ l : List mypair, (leaf_segments THRESHOLD l 0).length ≤ 2 ^ 3 ∧
      (leaf_segments THRESHOLD l 0).flatten = l) := by
  refine ⟨rfl, ?_, ?_, ?_, ?_, ?_⟩
  · intro reci
    simp [depth_gate]
  · intro l reci h1 h2
    rw [stable_sort_impl.eq_def, if_neg (by omega), if_pos h2]
  · intro l reci h1 h2
    rw [stable_sort_impl.eq_def, if_neg (by omega), if_neg (by omega)]
  · exact fun l reci h => leaf_segments_past_gate THRESHOLD l reci h
  · intro l
    refine ⟨?_, leaf_segments_flatten THRESHOLD l 0⟩
    have h := leaf_segments_count THRESHOLD l 0
    simpa [THRESHOLD] using h

/-- Witness for C4: a gated call at depth 1 on a two-record range splits
into its two halves, and the leaf count of a small top-level call tree obeys
the bound. -/
theorem C4_witness :
    (1 < ([(((1 : Int), (1 : Int)) : mypair), ((0 : Int), (0 : Int))]).length ∧
      (1 : Int) + 1 ≤ THRESHOLD ∧
      stable_sort_impl THRESHOLD [(((1 : Int), (1 : Int)) : mypair), ((0 : Int), (0 : Int))] 1 =
        inplace_merge (stable_sort_impl THRESHOLD [(((1 : Int), (1 : Int)) : mypair)] 2)
          (stable_sort_impl THRESHOLD [(((0 : Int), (0 : Int)) : mypair)] 2)) ∧
    (THRESHOLD ≤ (5 : Int) ∧
      leaf_segments THRESHOLD [(((1 : Int), (1 : Int)) : mypair)] 5 = [[((1 : Int), (1 : Int))]]) ∧
    (leaf_segments THRESHOLD [(((1 : Int), (1 : Int)) : mypair), ((0 : Int), (0 : Int))] 0).length
      ≤ 2 ^ 3 := by
  refine ⟨⟨by decide, by decide, ?_⟩, ⟨by decide, ?_⟩, ?_⟩
  · have h := C4_depth_gate_bounds_fanout.2.2.1
      [(((1 : Int), (1 : Int)) : mypair), ((0 : Int), (0 : Int))] 1 (by decide) (by decide)
    simpa using h
  · exact C4_depth_gate_bounds_fanout.2.2.2.2.1 [(((1 : Int), (1 : Int)) : mypair)] 5
      (by decide)
  · have h := C4_depth_gate_bounds_fanout.2.2.2.2.2
      [(((1 : Int), (1 : Int)) : mypair), ((0 : Int), (0 : Int))]
    exact h.1

/-- C5: a sequence of length 0 or 1 is returned unchanged immediately by
every variant, and no input is rejected — the embedded sort is a total
function on finite record sequences. -/
theorem C5_short_inputs_unchanged (l : List mypair) (h : l.length ≤ 1) :
    stable_sort_thread l = l ∧ stable_sort_openmp l = l ∧
    stable_sort_tbb l = l ∧ stable_sort_cilk l = l := by
  have himpl : stable_sort_impl THRESHOLD l 0 = l := by
    rw [stable_sort_impl.eq_def, if_pos h]
  exact ⟨himpl, himpl, himpl, himpl⟩

/-- Witness for C5 on the empty sequence and on a singleton. -/
theorem C5_witness :
    ([] : List mypair).length ≤ 1 ∧ stable_sort_thread [] = [] ∧
    ([(((7 : Int), (0 : Int)) : mypair)].length ≤ 1 ∧
      stable_sort_cilk [((7 : Int), (0 : Int))] = [((7 : Int), (0 : Int))]) :=
  ⟨by decide, (C5_short_inputs_unchanged [] (by decide)).1,
    by decide,
    (C5_short_inputs_unchanged [(((7 : Int), (0 : Int)) : mypair)] (by decide)).2.2.2⟩

/-- C6: a sequence that is already sorted — keys ascending, records with
equal keys in ascending original-index order — is returned element for
element unchanged by every variant. -/
theorem C6_idempotent_on_sorted (l : List mypair)
    (h : l.Pairwise (fun a b : mypair => a.1 < b.1 ∨ (a.1 = b.1 ∧ a.2 ≤ b.2))) :
    stable_sort_thread l = l ∧ stable_sort_openmp l = l ∧
    stable_sort_tbb l = l ∧ stable_sort_cilk l = l := by
  have hsorted : l.Pairwise mypair_le := h.imp (fun hab => hab)
  have himpl : stable_sort_impl THRESHOLD l 0 = l := by
    rw [stable_sort_impl_eq_std]
    exact std_stable_sort_of_sorted hsorted
  exact ⟨himpl, himpl, himpl, himpl⟩

/-- Witness for C6 on the sorted Scenario A output, which contains a
duplicate-key run. -/
theorem C6_witness :
    List.Pairwise (fun a b : mypair => a.1 < b.1 ∨ (a.1 = b.1 ∧ a.2 ≤ b.2))
      [((1 : Int), (3 : Int)), (3, 1), (5, 0), (5, 2)] ∧
    stable_sort_thread [((1 : Int), (3 : Int)), (3, 1), (5, 0), (5, 2)]
      = [((1 : Int), (3 : Int)), (3, 1), (5, 0), (5, 2)] :=
  ⟨by decide,
    (C6_idempotent_on_sorted [((1 : Int), (3 : Int)), (3, 1), (5, 0), (5, 2)] (by decide)).1⟩

/-- C7: the result of the recursion is the same for threshold values 0, 3
and 10 when the threshold is a parameter of the recursion — the depth gate
changes only how the work is divided, never the final contents. -/
theorem C7_threshold_invariance (l : List mypair) :
    stable_sort_impl 0 l 0 = stable_sort_impl 3 l 0 ∧
    stable_sort_impl 10 l 0 = stable_sort_impl 3 l 0 := by
  rw [stable_sort_impl_eq_std, stable_sort_impl_eq_std, stable_sort_impl_eq_std]
  exact ⟨rfl, rfl⟩

/-- C8: every variant returns a permutation of the range it was given: the
multiset of records is preserved, no record is created, lost or modified.
The embedding returns the new contents of exactly the given range, so no
other memory is touched. -/
theorem C8_variants_permute (l : List mypair) :
    (stable_sort_thread l).Perm l ∧ (stable_sort_openmp l).Perm l ∧
    (stable_sort_tbb l).Perm l ∧ (stable_sort_cilk l).Perm l := by
  have h : (stable_sort_impl THRESHOLD l 0).Perm l := by
    rw [stable_sort_impl_eq_std]
    exact std_stable_sort_perm l
  exact ⟨h, h, h, h⟩

/-- C9: the recursion terminates on every finite range: a range of length
at most 1 returns immediately unchanged, and a longer range is split at the
arithmetic midpoint into two strictly shorter, non-empty sub-ranges — the
measure by which stable_sort_impl is a total function. -/
theorem C9_recursion_well_founded :
    (∀ (t : Int) (l : List mypair) (reci : Int), l.length ≤ 1 →
      stable_sort_impl t l reci = l) ∧
    (∀ l : List mypair, 1 < l.length →
      (l.take (l.length / 2)).length < l.length ∧ 0 < (l.take (l.length / 2)).length ∧
      (l.drop (l.length / 2)).length < l.length ∧ 0 < (l.drop (l.length / 2)).length) := by
  constructor
  · intro t l reci h
    rw [stable_sort_impl.eq_def, if_pos h]
  · intro l h
    simp only [List.length_take, List.length_drop]
    omega

/-- Witness for C9: a singleton returns immediately, and a two-record range
splits into two strictly shorter non-empty halves. -/
theorem C9_witness :
    ([(((4 : Int), (0 : Int)) : mypair)].length ≤ 1 ∧
      stable_sort_impl 3 [(((4 : Int), (0 : Int)) : mypair)] 0 = [((4 : Int), (0 : Int))]) ∧
    (1 < ([(((4 : Int), (0 : Int)) : mypair), ((2 : Int), (1 : Int))]).length ∧
      (([(((4 : Int), (0 : Int)) : mypair), ((2 : Int), (1 : Int))]).take 1).length < 2 ∧
      0 < (([(((4 : Int), (0 : Int)) : mypair), ((2 : Int), (1 : Int))]).drop 1).length) := by
  refine ⟨⟨by decide, ?_⟩, by decide, ?_, ?_⟩
  · exact C9_recursion_well_founded.1 3 [(((4 : Int), (0 : Int)) : mypair)] 0 (by decide)
  · have h := C9_recursion_well_founded.2
      [(((4 : Int), (0 : Int)) : mypair), ((2 : Int), (1 : Int))] (by decide)
    simpa using h.1
  · have h := C9_recursion_well_founded.2
      [(((4 : Int), (0 : Int)) : mypair), ((2 : Int), (1 : Int))] (by decide)
    simpa using h.2.2.2

/-- C10: records are compared by the default lexicographic order on the
pair (key, original index), so the comparator itself breaks equal-key ties
by original index; for an input with pairwise distinct original indices the
output is the unique ascending sequence under this total order, hence
identical across all backend variants and schedules. -/
theorem C10_lex_comparator_unique_output (l : List mypair)
    (hdist : l.Pairwise (fun a b : mypair => a.2 ≠ b.2)) :
    (∀ a b : mypair, mypair_lt a b ↔ (a.1 < b.1 ∨ (a.1 = b.1 ∧ a.2 < b.2))) ∧
    (∀ out : List mypair, out.Perm l → out.Pairwise mypair_le →
      out = stable_sort_thread l) ∧
    stable_sort_openmp l = stable_sort_thread l ∧
    stable_sort_tbb l = stable_sort_thread l ∧
    stable_sort_cilk l = stable_sort_thread l := by
  refine ⟨fun a b => Iff.rfl, ?_, rfl, rfl, rfl⟩
  intro out hperm hsort
  have hthread : stable_sort_thread l = std_stable_sort l :=
    stable_sort_impl_eq_std THRESHOLD l 0
  rw [hthread]
  have hp : out.Perm (std_stable_sort l) := hperm.trans (std_stable_sort_perm l).symm
  have h1 : List.Sorted mypair_le out := hsort
  have h2 : List.Sorted mypair_le (std_stable_sort l) := std_stable_sort_sorted l
  exact List.eq_of_perm_of_sorted hp h1 h2

/-- Witness for C10 at the Scenario A input, whose original indices are
pairwise distinct. -/
theorem C10_witness :
    List.Pairwise (fun a b : mypair => a.2 ≠ b.2) [((5 : Int), (0 : Int)), (3, 1), (5, 2), (1, 3)] ∧
    (∀ out : List mypair, out.Perm [((5 : Int), (0 : Int)), (3, 1), (5, 2), (1, 3)] →
      out.Pairwise mypair_le →
      out = stable_sort_thread [((5 : Int), (0 : Int)), (3, 1), (5, 2), (1, 3)]) ∧
    stable_sort_tbb [((5 : Int), (0 : Int)), (3, 1), (5, 2), (1, 3)]
      = stable_sort_thread [((5 : Int), (0 : Int)), (3, 1), (5, 2), (1, 3)] :=
  ⟨by decide,
    (C10_lex_comparator_unique_output [((5 : Int), (0 : Int)), (3, 1), (5, 2), (1, 3)]
      (by decide)).2.1,
    (C10_lex_comparator_unique_output [((5 : Int), (0 : Int)), (3, 1), (5, 2), (1, 3)]
      (by decide)).2.2.2.1⟩
